import Mathlib

/-!
Verification of the LiveTrans realtime audio bridge.

The development shallowly embeds the audio pipeline of the application:
the playback scheduler kept in `nextStartTimeRef` / `sourcesRef` and the
`onmessage` / `stopSession` handlers of `App` (src/components/AudioVisualizer.tsx,
second and following documents), and the bar renderer of the
`AudioVisualizer` component (same file, first document, lines 12-46).

The helper module `services/audioService.ts` (`downsample`, `encodeAudio`,
`decodeAudio`, `decodeAudioData`) is imported by the application but its
source is not part of the repository snapshot; those four functions are
modelled from the specification, as marked in their doc comments.

Times and sample values are embedded as rationals (`ℚ`); byte values and
transport code units as naturals; the active source set as a `Finset ℕ`
of handles.
-/

/-- Modelled from the spec: `encodeAudio` of `services/audioService.ts` is
absent from the repository snapshot.  Per §4.2 the codec is a
length-preserving reversible text encoding with base64 semantics.  Bytes
are grouped three at a time into four 6-bit code units; the value 64
stands for the padding character. -/
def encodeAudio : List ℕ → List ℕ
  | [] => []
  | [a] => [a / 4, a % 4 * 16, 64, 64]
  | [a, b] => [a / 4, a % 4 * 16 + b / 16, b % 16 * 4, 64]
  | a :: b :: c :: rest =>
    (a / 4) :: (a % 4 * 16 + b / 16) :: (b % 16 * 4 + c / 64) :: (c % 64) :: encodeAudio rest

/-- Modelled from the spec: `decodeAudio` of `services/audioService.ts` is
absent from the repository snapshot.  Inverse direction of the base64
codec of §4.2: four code units yield three bytes, fewer when padding
(value 64) is present. -/
def decodeAudio : List ℕ → List ℕ
  | s1 :: s2 :: s3 :: s4 :: rest =>
    if s3 = 64 then [s1 * 4 + s2 / 16]
    else if s4 = 64 then [s1 * 4 + s2 / 16, s2 % 16 * 16 + s3 / 4]
    else (s1 * 4 + s2 / 16) :: (s2 % 16 * 16 + s3 / 4) :: (s3 % 4 * 64 + s4) :: decodeAudio rest
  | _ => []

/-- Decoded PCM audio: a sample rate and one plane of normalized samples
per channel, mirroring the browser AudioBuffer handed to
`createBufferSource`. -/
structure AudioChunkBuffer where
  sampleRate : ℕ
  channelData : List (List ℚ)
deriving DecidableEq

/-- One interleaved little-endian signed 16-bit sample assembled from two
bytes. -/
def int16le (lo hi : ℕ) : ℤ :=
  let u := lo % 256 + 256 * (hi % 256)
  if u < 32768 then (u : ℤ) else (u : ℤ) - 65536

/-- Modelled from the spec: `decodeAudioData` of `services/audioService.ts`
is absent from the repository snapshot.  Per §4.3 the PCM frame builder
fails (with `MalformedAudioError`, here `none`) exactly when the byte
length is not a multiple of `2 * channels`, and otherwise splits the
16-bit little-endian interleaved samples into `channels` planes of
`length / (2 * channels)` samples, each normalized by `1 / 32768`. -/
def decodeAudioData (bytes : List ℕ) (sampleRate numChannels : ℕ) :
    Option AudioChunkBuffer :=
  if 2 * numChannels ∣ bytes.length then
    some { sampleRate := sampleRate
           channelData := List.ofFn fun c : Fin numChannels =>
             List.ofFn fun k : Fin (bytes.length / (2 * numChannels)) =>
               (int16le (bytes.getD (2 * (k.1 * numChannels + c.1)) 0)
                        (bytes.getD (2 * (k.1 * numChannels + c.1) + 1) 0) : ℚ) / 32768 }
  else none

/-- Playback length in seconds of a decoded buffer: frames divided by the
sample rate, as read off `buffer.duration` in the message handler. -/
def AudioChunkBuffer.duration (b : AudioChunkBuffer) : ℚ :=
  ((b.channelData.headD []).length : ℚ) / (b.sampleRate : ℚ)

/-- Rounding of a nonnegative rational to the nearest natural, as
JavaScript Math.round does for the nonnegative lengths involved
(`Rat.floor` is the executable floor; it agrees with `Int.floor`). -/
def roundToNat (q : ℚ) : ℕ := (Rat.floor (q + 1 / 2)).toNat

/-- Modelled from the spec: `downsample` of `services/audioService.ts` is
absent from the repository snapshot.  Per §4.1 the sample-rate converter
produces `round(len * toRate / fromRate)` samples; output index `i` reads
the fractional position `p = i * fromRate / toRate` and linearly
interpolates between the two neighbouring input samples, falling back to
the left sample at the right edge. -/
def downsample (input : List ℚ) (fromRate toRate : ℕ) : List ℚ :=
  List.ofFn fun i : Fin (roundToNat ((input.length : ℚ) * toRate / fromRate)) =>
    let p : ℚ := (i.1 : ℚ) * fromRate / toRate
    let i0 : ℕ := (Rat.floor p).toNat
    let frac : ℚ := p - (i0 : ℚ)
    if i0 + 1 < input.length then
      input.getD i0 0 * (1 - frac) + input.getD (i0 + 1) 0 * frac
    else
      input.getD i0 0

/-- Playback scheduler state: the refs `nextStartTimeRef` (the cursor) and
`sourcesRef` (handles of in-flight AudioBufferSourceNodes) of `App`. -/
structure SchedState where
  nextStartTime : ℚ
  sources : Finset ℕ
deriving DecidableEq

/-- Application state touched by the session callbacks: the scheduler refs
plus the transcript accumulators `currentInputRef` / `currentOutputRef`
and the saved history entries (text, translation). -/
structure AppState where
  sched : SchedState
  currentInput : List Char
  currentOutput : List Char
  transcripts : List (List Char × List Char)
deriving DecidableEq

/-- Fields of a LiveServerMessage that the `onmessage` handler reads:
optional transport-encoded audio, the two transcription fragments and the
`turnComplete` / `interrupted` flags. -/
structure ServerMessage where
  audioData : Option (List ℕ)
  inputTranscription : Option (List Char)
  outputTranscription : Option (List Char)
  turnComplete : Bool
  interrupted : Bool
deriving DecidableEq

/-- Cursor bump performed at the head of the audio branch:
`nextStartTimeRef.current = Math.max(nextStartTimeRef.current, currentCtx.currentTime)`;
the bumped value is the start time passed to `source.start`. -/
def scheduleStart (cursor now : ℚ) : ℚ := max cursor now

/-- Whitespace trim of a character string, as the JavaScript trim method
used by the truthiness guard of saveToHistory. -/
def trimChars (s : List Char) : List Char :=
  ((s.dropWhile Char.isWhitespace).reverse.dropWhile Char.isWhitespace).reverse

/-- History flush `saveToHistory` of `App`: when either accumulator is
nonempty after trimming, append an entry, then clear both accumulators. -/
def saveToHistory (st : AppState) : AppState :=
  { st with
    transcripts :=
      if trimChars st.currentInput ≠ [] ∨ trimChars st.currentOutput ≠ [] then
        st.transcripts ++ [(st.currentInput, st.currentOutput)]
      else st.transcripts
    currentInput := []
    currentOutput := [] }

/-- Tail of the `onmessage` handler, run after the audio branch: append
transcription fragments, flush on `turnComplete`, and on `interrupted`
stop every source, clear the set and zero the cursor. -/
def afterAudio (msg : ServerMessage) (st : AppState) : AppState :=
  let st1 :=
    match msg.inputTranscription with
    | some t => { st with currentInput := st.currentInput ++ t }
    | none => st
  let st2 :=
    match msg.outputTranscription with
    | some t => { st1 with currentOutput := st1.currentOutput ++ t }
    | none => st1
  let st3 := if msg.turnComplete then saveToHistory st2 else st2
  if msg.interrupted then
    { st3 with sched := { nextStartTime := 0, sources := ∅ } }
  else st3

/-- Message handler `onmessage` of the live session.  With an audio
payload and a live context the cursor is bumped to
`max(cursor, now)`, the payload is decoded at 24000 Hz mono, the buffer
is started at the bumped cursor, the cursor advances by its duration and
the fresh source handle joins the set; when decoding fails the awaited
rejection aborts the handler there (the chunk is dropped).  The remaining
message fields are then processed by `afterAudio`. -/
def onmessage (msg : ServerMessage) (ctxOk : Bool) (now : ℚ) (handle : ℕ)
    (st : AppState) : AppState :=
  match msg.audioData with
  | some txt =>
    if ctxOk then
      let start := scheduleStart st.sched.nextStartTime now
      match decodeAudioData (decodeAudio txt) 24000 1 with
      | none => { st with sched := { st.sched with nextStartTime := start } }
      | some buf =>
        afterAudio msg
          { st with sched := { nextStartTime := start + buf.duration
                               sources := insert handle st.sched.sources } }
    else afterAudio msg st
  | none => afterAudio msg st

/-- Session teardown `stopSession` of `App`: flush the transcript
accumulators, then stop every active source, clear the set and zero the
cursor (the transport/stream/context refs it also nulls are outside this
embedding). -/
def stopSession (st : AppState) : AppState :=
  { saveToHistory st with sched := { nextStartTime := 0, sources := ∅ } }

/-- Handles passed to `forEach(s.stop())` by the interrupted branch and by
`stopSession`: the whole current source set. -/
def stoppedHandles (s : SchedState) : Finset ℕ := s.sources

/-- Callback-level events of one session: an inbound server message (with
the ambient context availability, audio-clock time and the fresh source
handle), the natural `ended` listener of a source, the Stop button, and
the `onerror` / `onclose` transport callbacks. -/
inductive SessionEvent
  | message (msg : ServerMessage) (ctxOk : Bool) (now : ℚ) (handle : ℕ)
  | sourceEnded (handle : ℕ)
  | stopClick
  | onerror
  | onclose
deriving DecidableEq

/-- Dispatch of one event to the handler the source installs for it. -/
def step (st : AppState) : SessionEvent → AppState
  | .message msg ctxOk now handle => onmessage msg ctxOk now handle st
  | .sourceEnded handle =>
    { st with sched := { st.sched with sources := st.sched.sources.erase handle } }
  | .stopClick => stopSession st
  | .onerror => stopSession st
  | .onclose => stopSession st

/-- Events that explicitly reset the scheduler: a message carrying the
interrupted flag, and the three teardown paths. -/
def isReset : SessionEvent → Bool
  | .message msg _ _ _ => msg.interrupted
  | .sourceEnded _ => false
  | .stopClick => true
  | .onerror => true
  | .onclose => true

/-- One rendered bar of the visualizer: position, size. -/
structure Bar where
  x : ℚ
  y : ℚ
  width : ℚ
  height : ℚ
deriving DecidableEq

/-- One frame of the `draw` loop of the `AudioVisualizer` component
(lines 24-39): one bar per frequency bin, bar width
`canvas.width / bufferLength * 2.5`, bar height `dataArray[i] / 2`,
advancing x by `barWidth + 1` per bar. -/
def draw (dataArray : List ℕ) (canvasWidth canvasHeight : ℚ) : List Bar :=
  let bufferLength := dataArray.length
  let barWidth : ℚ := canvasWidth / (bufferLength : ℚ) * (5 / 2)
  List.ofFn fun i : Fin bufferLength =>
    let barHeight : ℚ := (dataArray.getD i.1 0 : ℚ) / 2
    { x := (i.1 : ℚ) * (barWidth + 1)
      y := canvasHeight - barHeight
      width := barWidth
      height := barHeight }

/-- Guarded effect body of the `AudioVisualizer` component (lines 12-21):
when the tap is inactive, the analyser is absent or the 2d context is
unavailable the effect returns before starting the animation loop
(`none`); otherwise each frame renders `draw` of the current snapshot. -/
def visualizerEffect (isActive : Bool) (analyserData : Option (List ℕ))
    (ctxAvailable : Bool) (canvasWidth canvasHeight : ℚ) : Option (List Bar) :=
  if !isActive then none
  else
    match analyserData with
    | none => none
    | some dataArray =>
      if !ctxAvailable then none
      else some (draw dataArray canvasWidth canvasHeight)

/-- Start times produced by feeding a list of (call time, duration) pairs
through the audio branch of `onmessage` in sequence, beginning from a
given cursor. -/
def runSchedule (cursor : ℚ) : List (ℚ × ℚ) → List ℚ
  | [] => []
  | c :: rest =>
    scheduleStart cursor c.1 :: runSchedule (scheduleStart cursor c.1 + c.2) rest

theorem byteHigh (a b : ℕ) (hb : b < 256) :
    a / 4 * 4 + (a % 4 * 16 + b / 16) / 16 = a := by
  obtain ⟨q, hq⟩ : ∃ q, b / 16 = q := ⟨_, rfl⟩
  rw [hq]
  omega

theorem byteMidPad (a b : ℕ) (hb : b < 256) :
    (a % 4 * 16 + b / 16) % 16 * 16 + b % 16 * 4 / 4 = b := by
  obtain ⟨q, hq⟩ : ∃ q, b / 16 = q := ⟨_, rfl⟩
  have h2 : b % 16 = b - 16 * q := by omega
  rw [hq, h2]
  omega

theorem byteMid (a b c : ℕ) (hb : b < 256) (hc : c < 256) :
    (a % 4 * 16 + b / 16) % 16 * 16 + (b % 16 * 4 + c / 64) / 4 = b := by
  obtain ⟨q, hq⟩ : ∃ q, b / 16 = q := ⟨_, rfl⟩
  obtain ⟨r, hr⟩ : ∃ r, c / 64 = r := ⟨_, rfl⟩
  have h2 : b % 16 = b - 16 * q := by omega
  rw [hq, hr, h2]
  omega

theorem byteLow (b c : ℕ) (hc : c < 256) :
    (b % 16 * 4 + c / 64) % 4 * 64 + c % 64 = c := by
  obtain ⟨r, hr⟩ : ∃ r, c / 64 = r := ⟨_, rfl⟩
  rw [hr]
  omega

/-- C4: for every byte sequence, including the empty one and sequences
using the whole 0-255 range, `decodeAudio (encodeAudio b) = b`: the
transport codec is an exact inverse pair with no chunking limit. -/
theorem codec_roundtrip (b : List ℕ) (hb : ∀ x ∈ b, x < 256) :
    decodeAudio (encodeAudio b) = b := by
  induction b using encodeAudio.induct with
  | case1 => simp [encodeAudio, decodeAudio]
  | case2 a =>
    have ha : a < 256 := hb a (by simp)
    show decodeAudio [a / 4, a % 4 * 16, 64, 64] = [a]
    rw [decodeAudio, if_pos rfl]
    simp only [List.cons.injEq, and_true]
    omega
  | case3 a b =>
    have ha : a < 256 := hb a (by simp)
    have hb2 : b < 256 := hb b (by simp)
    have h3 : ¬ (b % 16 * 4 = 64) := by omega
    show decodeAudio [a / 4, a % 4 * 16 + b / 16, b % 16 * 4, 64] = [a, b]
    rw [decodeAudio, if_neg h3, if_pos rfl]
    simp only [List.cons.injEq, and_true]
    exact ⟨byteHigh a b hb2, byteMidPad a b hb2⟩
  | case4 a b c rest ih =>
    have ha : a < 256 := hb a (by simp)
    have hb2 : b < 256 := hb b (by simp)
    have hc : c < 256 := hb c (by simp)
    have hrest : ∀ x ∈ rest, x < 256 := fun x hx => hb x (by simp [hx])
    have h3 : ¬ (b % 16 * 4 + c / 64 = 64) := by omega
    have h4 : ¬ (c % 64 = 64) := by omega
    show decodeAudio
        ((a / 4) :: (a % 4 * 16 + b / 16) :: (b % 16 * 4 + c / 64) :: (c % 64) :: encodeAudio rest)
        = a :: b :: c :: rest
    rw [decodeAudio, if_neg h3, if_neg h4, ih hrest]
    simp only [List.cons.injEq, and_true, and_self_iff, eq_self_iff_true]
    exact ⟨byteHigh a b hb2, byteMid a b c hb2 hc, byteLow b c hc⟩

theorem codec_roundtrip_witness :
    decodeAudio (encodeAudio [0, 255, 128, 1, 254]) = [0, 255, 128, 1, 254] ∧
    decodeAudio (encodeAudio []) = [] :=
  ⟨codec_roundtrip [0, 255, 128, 1, 254] (by decide), codec_roundtrip [] (by decide)⟩

theorem floor_as_ratFloor (q : ℚ) : ⌊q⌋ = Rat.floor q :=
  (Rat.floor_def).trans (Rat.floor_def' q).symm

/-- C3: the sample-rate converter emits `round(len * toRate / fromRate)`
samples, and sample `i` is the linear interpolation of the two input
samples flanking position `i * fromRate / toRate` (the left sample alone
at the right edge); as a Lean function it is pure and deterministic. -/
theorem downsample_spec (input : List ℚ) (fromRate toRate : ℕ) (i : ℕ)
    (hi : i < (downsample input fromRate toRate).length) :
    (downsample input fromRate toRate).length
      = roundToNat ((input.length : ℚ) * toRate / fromRate) ∧
    (downsample input fromRate toRate).getD i 0
      = (if (⌊(i : ℚ) * fromRate / toRate⌋).toNat + 1 < input.length then
          input.getD (⌊(i : ℚ) * fromRate / toRate⌋).toNat 0
            * (1 - ((i : ℚ) * fromRate / toRate
                - ((⌊(i : ℚ) * fromRate / toRate⌋).toNat : ℚ)))
          + input.getD ((⌊(i : ℚ) * fromRate / toRate⌋).toNat + 1) 0
            * ((i : ℚ) * fromRate / toRate
                - ((⌊(i : ℚ) * fromRate / toRate⌋).toNat : ℚ))
        else input.getD (⌊(i : ℚ) * fromRate / toRate⌋).toNat 0) := by
  constructor
  · simp [downsample]
  · rw [List.getD_eq_getElem _ _ hi]
    have hlen : i < roundToNat ((input.length : ℚ) * toRate / fromRate) := by
      simpa [downsample] using hi
    simp only [downsample, List.getElem_ofFn, floor_as_ratFloor]

unseal Rat.mul Rat.add Rat.sub Rat.inv in
theorem downsample_spec_witness :
    (downsample [1, 2, 3] 3 2).getD 1 0 = 5 / 2 := by
  have h := (downsample_spec [1, 2, 3] 3 2 1 (by decide)).2
  rw [h]
  simp only [floor_as_ratFloor]
  decide

theorem duration_nonneg (b : AudioChunkBuffer) : 0 ≤ b.duration :=
  div_nonneg (Nat.cast_nonneg _) (Nat.cast_nonneg _)

theorem saveToHistory_sched (st : AppState) : (saveToHistory st).sched = st.sched := rfl

theorem afterAudio_sched (msg : ServerMessage) (st : AppState)
    (hi : msg.interrupted = false) : (afterAudio msg st).sched = st.sched := by
  unfold afterAudio
  rw [hi]
  cases msg.inputTranscription <;> cases msg.outputTranscription <;>
    cases msg.turnComplete <;> simp [saveToHistory]

theorem afterAudio_interrupted (msg : ServerMessage) (st : AppState)
    (hi : msg.interrupted = true) :
    (afterAudio msg st).sched = { nextStartTime := 0, sources := ∅ } := by
  unfold afterAudio
  rw [hi]
  simp

theorem onmessage_audio_ok (msg : ServerMessage) (txt : List ℕ) (now : ℚ) (handle : ℕ)
    (st : AppState) (buf : AudioChunkBuffer)
    (ha : msg.audioData = some txt) (hi : msg.interrupted = false)
    (hbuf : decodeAudioData (decodeAudio txt) 24000 1 = some buf) :
    (onmessage msg true now handle st).sched
      = { nextStartTime := scheduleStart st.sched.nextStartTime now + buf.duration
          sources := insert handle st.sched.sources } := by
  unfold onmessage
  rw [ha]
  dsimp only
  rw [hbuf]
  dsimp only
  rw [if_pos rfl, afterAudio_sched _ _ hi]

theorem onmessage_audio_bad (msg : ServerMessage) (txt : List ℕ) (now : ℚ) (handle : ℕ)
    (st : AppState)
    (ha : msg.audioData = some txt)
    (hbad : decodeAudioData (decodeAudio txt) 24000 1 = none) :
    (onmessage msg true now handle st).sched
      = { nextStartTime := scheduleStart st.sched.nextStartTime now
          sources := st.sched.sources } := by
  unfold onmessage
  rw [ha]
  dsimp only
  rw [hbad, if_pos rfl]

theorem onmessage_noaudio (msg : ServerMessage) (ctxOk : Bool) (now : ℚ) (handle : ℕ)
    (st : AppState) (ha : msg.audioData = none) (hi : msg.interrupted = false) :
    (onmessage msg ctxOk now handle st).sched = st.sched := by
  unfold onmessage
  rw [ha]
  exact afterAudio_sched _ _ hi

theorem onmessage_noctx (msg : ServerMessage) (txt : List ℕ) (now : ℚ) (handle : ℕ)
    (st : AppState) (ha : msg.audioData = some txt) (hi : msg.interrupted = false) :
    (onmessage msg false now handle st).sched = st.sched := by
  unfold onmessage
  rw [ha]
  exact afterAudio_sched _ _ hi

theorem runSchedule_cons (cursor : ℚ) (c : ℚ × ℚ) (rest : List (ℚ × ℚ)) :
    runSchedule cursor (c :: rest)
      = scheduleStart cursor c.1 :: runSchedule (scheduleStart cursor c.1 + c.2) rest := rfl

theorem runSchedule_chain : ∀ (chunks : List (ℚ × ℚ)) (cursor0 : ℚ),
    (∀ j, j + 1 < chunks.length →
      (chunks.getD (j + 1) (0, 0)).1
        ≤ (runSchedule cursor0 chunks).getD j 0 + (chunks.getD j (0, 0)).2) →
    ∀ i, i + 1 < chunks.length →
    (runSchedule cursor0 chunks).getD (i + 1) 0
      = (runSchedule cursor0 chunks).getD i 0 + (chunks.getD i (0, 0)).2 := by
  intro chunks
  induction chunks with
  | nil => intro cursor0 _ i hi; simp at hi
  | cons c rest ih =>
    intro cursor0 hchain i hi
    cases rest with
    | nil => simp at hi
    | cons c2 rest2 =>
      cases i with
      | zero =>
        have h0 := hchain 0 (by simp)
        simp only [runSchedule_cons, List.getD_cons_succ, List.getD_cons_zero,
          scheduleStart] at h0 ⊢
        exact max_eq_left h0
      | succ i2 =>
        have hlen : i2 + 1 < (c2 :: rest2).length := by
          simpa using Nat.lt_of_succ_lt_succ hi
        have hch2 : ∀ j, j + 1 < (c2 :: rest2).length →
            ((c2 :: rest2).getD (j + 1) (0, 0)).1
              ≤ (runSchedule (scheduleStart cursor0 c.1 + c.2) (c2 :: rest2)).getD j 0
                + ((c2 :: rest2).getD j (0, 0)).2 := by
          intro j hj
          have hc := hchain (j + 1) (by simpa using Nat.succ_lt_succ hj)
          simpa only [runSchedule_cons, List.getD_cons_succ] using hc
        have hrec := ih (scheduleStart cursor0 c.1 + c.2) hch2 i2 hlen
        simpa only [runSchedule_cons, List.getD_cons_succ] using hrec

/-- C1: an inbound audio chunk starts at max(cursor, now) and leaves the
cursor at start + duration; hence for a sequence of chunks whose call
times each are at most their predecessor's end time, the start times
satisfy start[i+1] = start[i] + d[i] with start[0] = max(cursor0, now0):
back-to-back, gapless, non-overlapping playback. -/
theorem scheduler_gapless (cursor0 : ℚ) (chunks : List (ℚ × ℚ))
    (hchain : ∀ j, j + 1 < chunks.length →
      (chunks.getD (j + 1) (0, 0)).1
        ≤ (runSchedule cursor0 chunks).getD j 0 + (chunks.getD j (0, 0)).2) :
    (∀ (msg : ServerMessage) (txt : List ℕ) (now : ℚ) (handle : ℕ) (st : AppState)
        (buf : AudioChunkBuffer),
        msg.audioData = some txt → msg.interrupted = false →
        decodeAudioData (decodeAudio txt) 24000 1 = some buf →
        scheduleStart st.sched.nextStartTime now = max st.sched.nextStartTime now ∧
        (onmessage msg true now handle st).sched
          = { nextStartTime := max st.sched.nextStartTime now + buf.duration
              sources := insert handle st.sched.sources }) ∧
    (∀ c rest, chunks = c :: rest →
        (runSchedule cursor0 chunks).getD 0 0 = max cursor0 c.1) ∧
    (∀ i, i + 1 < chunks.length →
        (runSchedule cursor0 chunks).getD (i + 1) 0
          = (runSchedule cursor0 chunks).getD i 0 + (chunks.getD i (0, 0)).2) := by
  refine ⟨?_, ?_, ?_⟩
  · intro msg txt now handle st buf ha hi hbuf
    exact ⟨rfl, onmessage_audio_ok msg txt now handle st buf ha hi hbuf⟩
  · intro c rest hc
    subst hc
    simp [runSchedule_cons, scheduleStart]
  · exact runSchedule_chain chunks cursor0 hchain

unseal Rat.mul Rat.add Rat.sub Rat.inv in
theorem scheduler_gapless_witness :
    (runSchedule 1 [(0, 2), (2, 3)]).getD 1 0
      = (runSchedule 1 [(0, 2), (2, 3)]).getD 0 0
        + (([(0, 2), (2, 3)] : List (ℚ × ℚ)).getD 0 (0, 0)).2 :=
  (scheduler_gapless 1 [(0, 2), (2, 3)]
    (by
      intro j hj
      simp only [List.length_cons, List.length_nil] at hj
      have hj0 : j = 0 := by omega
      subst hj0
      decide)).2.2 0 (by decide)

/-- C2: an inbound message carrying the interrupted flag force-stops every
handle in the active set (the whole set is passed to stop), empties the
set and resets the cursor to 0; a buffer scheduled afterwards at a
nonnegative clock time now2 starts at now2 itself, never at the
pre-interrupt cursor value. -/
theorem interrupt_atomicity (st : AppState) (msg : ServerMessage) (ctxOk : Bool)
    (now now2 : ℚ) (handle : ℕ)
    (hmsg : msg.interrupted = true) (haud : msg.audioData = none) (hnow : 0 ≤ now2) :
    stoppedHandles st.sched = st.sched.sources ∧
    (onmessage msg ctxOk now handle st).sched.sources = ∅ ∧
    (onmessage msg ctxOk now handle st).sched.nextStartTime = 0 ∧
    scheduleStart (onmessage msg ctxOk now handle st).sched.nextStartTime now2 = now2 := by
  have hsched : (onmessage msg ctxOk now handle st).sched
      = { nextStartTime := 0, sources := ∅ } := by
    unfold onmessage
    rw [haud]
    exact afterAudio_interrupted _ _ hmsg
  refine ⟨rfl, by rw [hsched], by rw [hsched], ?_⟩
  rw [hsched]
  simpa [scheduleStart] using max_eq_right hnow

theorem interrupt_atomicity_witness :
    (onmessage ⟨none, none, none, false, true⟩ true 7 9
        ⟨⟨5, {3}⟩, [], [], []⟩).sched.sources = ∅ ∧
    (onmessage ⟨none, none, none, false, true⟩ true 7 9
        ⟨⟨5, {3}⟩, [], [], []⟩).sched.nextStartTime = 0 := by
  have h := interrupt_atomicity ⟨⟨5, {3}⟩, [], [], []⟩ ⟨none, none, none, false, true⟩
    true 7 2 9 rfl rfl (by decide)
  exact ⟨h.2.1, h.2.2.1⟩

/-- C5: the PCM frame builder fails exactly when the byte length is not a
multiple of 2 * channels; on such a malformed chunk the message handler
drops it — no source is added, the cursor is merely bumped to
max(cursor, now) and in particular never moves backwards, so the
scheduler continues undamaged. -/
theorem malformed_audio (bytes : List ℕ) (sr ch : ℕ) (msg : ServerMessage)
    (txt : List ℕ) (st : AppState) (now : ℚ) (handle : ℕ)
    (ha : msg.audioData = some txt)
    (hbad : ¬ (2 ∣ (decodeAudio txt).length)) :
    ((decodeAudioData bytes sr ch).isNone ↔ ¬ (2 * ch ∣ bytes.length)) ∧
    (onmessage msg true now handle st).sched.sources = st.sched.sources ∧
    (onmessage msg true now handle st).sched.nextStartTime
      = scheduleStart st.sched.nextStartTime now ∧
    st.sched.nextStartTime ≤ (onmessage msg true now handle st).sched.nextStartTime := by
  have hnone : decodeAudioData (decodeAudio txt) 24000 1 = none := by
    unfold decodeAudioData
    rw [mul_one, if_neg hbad]
  have hstep := onmessage_audio_bad msg txt now handle st ha hnone
  refine ⟨?_, by rw [hstep], by rw [hstep], ?_⟩
  · by_cases hd : 2 * ch ∣ bytes.length <;> simp [decodeAudioData, hd]
  · rw [hstep]
    exact le_max_left _ _

theorem malformed_audio_witness :
    (onmessage ⟨some [1, 16, 64, 64], none, none, false, false⟩ true 7 9
        ⟨⟨5, {3}⟩, [], [], []⟩).sched.sources = ({3} : Finset ℕ) ∧
    (onmessage ⟨some [1, 16, 64, 64], none, none, false, false⟩ true 7 9
        ⟨⟨5, {3}⟩, [], [], []⟩).sched.nextStartTime = scheduleStart 5 7 := by
  have h := malformed_audio [0, 1, 2] 24000 1 ⟨some [1, 16, 64, 64], none, none, false, false⟩
    [1, 16, 64, 64] ⟨⟨5, {3}⟩, [], [], []⟩ 7 9 rfl (by decide)
  exact ⟨h.2.1, h.2.2.1⟩

/-- C6: across every session event other than the explicit resets (a
message carrying the interrupted flag, the Stop button, and the
onerror/onclose teardown paths) the playback cursor is monotonically
non-decreasing. -/
theorem cursor_monotone (st : AppState) (e : SessionEvent) (h : isReset e = false) :
    st.sched.nextStartTime ≤ (step st e).sched.nextStartTime := by
  cases e with
  | message msg ctxOk now handle =>
    have hi : msg.interrupted = false := by simpa [isReset] using h
    show st.sched.nextStartTime ≤ (onmessage msg ctxOk now handle st).sched.nextStartTime
    rcases hma : msg.audioData with _ | txt
    · rw [onmessage_noaudio msg ctxOk now handle st hma hi]
    · cases ctxOk with
      | false => rw [onmessage_noctx msg txt now handle st hma hi]
      | true =>
        rcases hbuf : decodeAudioData (decodeAudio txt) 24000 1 with _ | buf
        · rw [onmessage_audio_bad msg txt now handle st hma hbuf]
          simp only [scheduleStart]
          exact le_max_left _ _
        · rw [onmessage_audio_ok msg txt now handle st buf hma hi hbuf]
          simp only [scheduleStart]
          exact le_trans (le_max_left _ _) (le_add_of_nonneg_right (duration_nonneg buf))
  | sourceEnded handle => exact le_refl _
  | stopClick => simp [isReset] at h
  | onerror => simp [isReset] at h
  | onclose => simp [isReset] at h

theorem cursor_monotone_witness :
    (⟨⟨5, {3}⟩, [], [], []⟩ : AppState).sched.nextStartTime
      ≤ (step ⟨⟨5, {3}⟩, [], [], []⟩ (.sourceEnded 3)).sched.nextStartTime :=
  cursor_monotone ⟨⟨5, {3}⟩, [], [], []⟩ (.sourceEnded 3) (by decide)

/-- C7: stopSession — the teardown path also invoked by the onerror and
onclose transport callbacks — force-stops every active handle, clears the
set and zeroes the cursor, its scheduler effect coincides with the
interrupt path, and it is idempotent. -/
theorem teardown_resets_idempotent (st : AppState) :
    stoppedHandles st.sched = st.sched.sources ∧
    (stopSession st).sched.nextStartTime = 0 ∧
    (stopSession st).sched.sources = ∅ ∧
    stopSession (stopSession st) = stopSession st ∧
    step st .onerror = stopSession st ∧
    step st .onclose = stopSession st ∧
    (stopSession st).sched = (afterAudio ⟨none, none, none, false, true⟩ st).sched := by
  refine ⟨rfl, rfl, rfl, ?_, rfl, rfl, ?_⟩
  · unfold stopSession saveToHistory
    simp [trimChars]
  · rw [afterAudio_interrupted _ _ rfl]
    rfl

/-- C10: a server message that carries no audio payload and no interrupted
flag (for example transcription-only or turn-complete messages) leaves
the playback scheduler — cursor and active source set — exactly as it
was. -/
theorem nonaudio_frame_effect (msg : ServerMessage) (ctxOk : Bool) (now : ℚ)
    (handle : ℕ) (st : AppState)
    (ha : msg.audioData = none) (hi : msg.interrupted = false) :
    (onmessage msg ctxOk now handle st).sched = st.sched :=
  onmessage_noaudio msg ctxOk now handle st ha hi

theorem nonaudio_frame_effect_witness :
    (onmessage ⟨none, some ['a'], some ['b'], true, false⟩ true 4 7
        ⟨⟨2, {1}⟩, ['x'], ['y'], []⟩).sched = (⟨⟨2, {1}⟩, ['x'], ['y'], []⟩ : AppState).sched :=
  nonaudio_frame_effect ⟨none, some ['a'], some ['b'], true, false⟩ true 4 7
    ⟨⟨2, {1}⟩, ['x'], ['y'], []⟩ rfl rfl

/-- C8 (counterexample): with the configured fftSize of 256 the snapshot
has 128 bins and the component draws 128 bars — outside the claimed
40-60 range — and a magnitude-255 bar is 127.5 pixels tall, which
exceeds every height of the claimed form
(magnitude/255) * canvasHeight * scaleFactor with scaleFactor at most
0.9 on the component's 40-pixel-high canvas. -/
theorem visualizer_bars_counterexample :
    (draw (List.replicate 128 255) 300 40).length = 128 ∧
    ¬ (40 ≤ (128 : ℕ) ∧ (128 : ℕ) ≤ 60) ∧
    ((draw (List.replicate 128 255) 300 40).getD 0 ⟨0, 0, 0, 0⟩).height = 255 / 2 ∧
    ((255 : ℚ) / 255) * 40 * (9 / 10) < 255 / 2 := by
  refine ⟨by simp only [draw, List.length_ofFn, List.length_replicate], by decide, ?_,
    by norm_num⟩
  have hl : (0 : ℕ) < (draw (List.replicate 128 255) 300 40).length := by
    simp only [draw, List.length_ofFn, List.length_replicate]
    norm_num
  have hr : (0 : ℕ) < (List.replicate 128 255).length := by simp
  rw [List.getD_eq_getElem _ _ hl]
  simp only [draw, List.getElem_ofFn]
  rw [List.getD_eq_getElem _ _ hr]
  simp [List.getElem_replicate]

/-- C8 (amended): each frame the visualizer draws one bar per frequency
bin — bufferLength bars, 128 for the configured fftSize of 256, not a
fixed count in 40-60 — where bar i samples bin i directly; each bar's
height is magnitude / 2 pixels, independent of canvas height, with no
scale factor and no minimum floor; bar width is
canvasWidth / bufferLength * 2.5 and bar i sits at x = i*(barWidth+1). -/
theorem visualizer_bars (dataArray : List ℕ) (w h : ℚ) (i : ℕ)
    (hi : i < dataArray.length) :
    (draw dataArray w h).length = dataArray.length ∧
    ((draw dataArray w h).getD i ⟨0, 0, 0, 0⟩).height = (dataArray.getD i 0 : ℚ) / 2 ∧
    ((draw dataArray w h).getD i ⟨0, 0, 0, 0⟩).width
      = w / (dataArray.length : ℚ) * (5 / 2) ∧
    ((draw dataArray w h).getD i ⟨0, 0, 0, 0⟩).x
      = (i : ℚ) * (w / (dataArray.length : ℚ) * (5 / 2) + 1) ∧
    ((draw dataArray w h).getD i ⟨0, 0, 0, 0⟩).y
      = h - (dataArray.getD i 0 : ℚ) / 2 := by
  have hl : i < (draw dataArray w h).length := by simpa [draw] using hi
  refine ⟨by simp only [draw, List.length_ofFn], ?_, ?_, ?_, ?_⟩ <;>
    rw [List.getD_eq_getElem _ _ hl] <;> simp [draw, hi]

theorem visualizer_bars_witness :
    ((draw [100, 200] 300 40).getD 1 ⟨0, 0, 0, 0⟩).height = ((200 : ℕ) : ℚ) / 2 := by
  have h := (visualizer_bars [100, 200] 300 40 1 (by decide)).2.1
  rw [h]
  rfl

/-- C9 (counterexample): with the analysis tap inactive, or absent, the
component's effect returns before starting the render loop: no frame is
drawn at all — there is no running loop holding every bar at a minimum
floor height. -/
theorem visualizer_degradation_counterexample :
    visualizerEffect false (some (List.replicate 128 0)) true 300 40 = none ∧
    visualizerEffect true none true 300 40 = none :=
  ⟨rfl, rfl⟩

/-- C9 (amended): when the tap is inactive or absent the effect starts no
render loop and draws nothing; and the renderer has no minimum floor —
every bar of an all-zero snapshot has height exactly 0. -/
theorem visualizer_degradation (dataArray : List ℕ) (ctxA : Bool) (w h : ℚ)
    (hz : ∀ x ∈ dataArray, x = 0) :
    visualizerEffect false (some dataArray) ctxA w h = none ∧
    visualizerEffect true none ctxA w h = none ∧
    ∀ b ∈ draw dataArray w h, b.height = 0 := by
  refine ⟨rfl, rfl, ?_⟩
  intro b hb
  simp only [draw, List.mem_ofFn] at hb
  obtain ⟨i, hi⟩ := hb
  have h0 : dataArray.getD i.1 0 = 0 := by
    rw [List.getD_eq_getElem _ _ i.2]
    exact hz _ (List.getElem_mem _)
  rw [← hi]
  show (dataArray.getD i.1 0 : ℚ) / 2 = 0
  rw [h0]
  norm_num

theorem visualizer_degradation_witness :
    visualizerEffect false (some [0, 0]) true 300 40 = none :=
  (visualizer_degradation [0, 0] true 300 40 (by decide)).1
